import Mathlib

/-!
Verification of the versioned retrieval index subsystem of the `aethetale`
repository against its natural-language specification.

Each definition below is a shallow embedding of a Python function of the
repository (file and line references in the doc comments).  Text is modelled
as `List Char`, machine integers as `Nat`/`Int`, JSON-level optionality as
`Option`, and fallible operations as `Except`.
-/

namespace Aethetale

/-! ### TextSplitter (src/py_libs/ingestion/splitter.py) -/

/-- A chunk produced by `TextSplitter.split_text`
(`splitter.py` lines 59-63): the dictionary
`'text': text[start:end], 'start_pos': start, 'end_pos': end`. -/
structure Chunk where
  text : List Char
  start_pos : Nat
  end_pos : Nat
deriving DecidableEq, Repr

/-- The sentence terminators of `splitter.py` line 22:
`sentence_endings = ['.', '!', '?']`. -/
def isSentenceEnding (c : Char) : Bool :=
  c == '.' || c == '!' || c == '?'

/-- `TextSplitter._find_sentence_boundary(text, position, 'backward')`
(`splitter.py` lines 30-35): scan `i` over
`range(position - 1, max(-1, position - 100), -1)`, i.e. from `position - 1`
down to `max(0, position - 99)`; return `i + 1` for the first hit, else
`position`.  Out-of-range reads are modelled by `getD` with a
non-terminator placeholder (the repository only calls this with
`position < len(text)`, where every scanned index is in range). -/
def find_sentence_boundary_backward (text : List Char) (position : Nat) : Nat :=
  match (List.range' (position - min position 99) (min position 99)).reverse.find?
      (fun i => isSentenceEnding (text.getD i 'a')) with
  | some i => i + 1
  | none => position

/-- `TextSplitter._find_sentence_boundary(text, position, 'forward')`
(`splitter.py` lines 24-29): scan `i` over
`range(position, min(len(text), position + 100))`; return `i + 1` for the
first hit, else `position`. -/
def find_sentence_boundary_forward (text : List Char) (position : Nat) : Nat :=
  match (List.range' position (min text.length (position + 100) - position)).find?
      (fun i => isSentenceEnding (text.getD i 'a')) with
  | some i => i + 1
  | none => position

/-- Lines 51-56 of `splitter.py`: the end position of the chunk that starts
at `start` — `end = min(start + chunk_size, len(text))`, snapped backward to
a sentence boundary when `end < len(text)`. -/
def split_end (chunk_size : Nat) (text : List Char) (start : Nat) : Nat :=
  if min (start + chunk_size) text.length < text.length then
    find_sentence_boundary_backward text (min (start + chunk_size) text.length)
  else min (start + chunk_size) text.length

/-- Lines 66-71 of `splitter.py`: the start of the next chunk after one that
ends at `e` — `start = max(end - chunk_overlap, end)`, then (only `if start
< end`, to snap an overlap to a sentence start) `start =
_find_sentence_boundary(text, start, 'forward')`.  Since `chunk_overlap` is
a non-negative count, `max(e - chunk_overlap, e)` is always `e` and the
forward snap is dead code; `split_next_eq` records this. -/
def split_next (chunk_overlap : Nat) (text : List Char) (e : Nat) : Nat :=
  if max (e - chunk_overlap) e < e then
    find_sentence_boundary_forward text (max (e - chunk_overlap) e)
  else max (e - chunk_overlap) e

/-- One pass of the `while start < len(text)` loop of
`TextSplitter.split_text` (`splitter.py` lines 50-75), with a fuel argument
for structural recursion: chunk creation (line 59-64, Python's slice
`text[start:end]` becomes `(text.drop start).take (e - start)`), next-start
computation, and the final
`if start >= len(text) or start <= chunks[-1]['start_pos']: break`.
The fuel never runs out when it starts at `text.length + 1`
(see `splitLoop_fuel_congr`): every recursive call strictly increases
`start`, which stays below `text.length`. -/
def splitLoop (chunk_size chunk_overlap : Nat) (text : List Char) :
    Nat → Nat → List Chunk
  | 0, _ => []
  | fuel + 1, start =>
    if start < text.length then
      let e := split_end chunk_size text start
      let chunk : Chunk := ⟨(text.drop start).take (e - start), start, e⟩
      let start2 := split_next chunk_overlap text e
      if text.length ≤ start2 ∨ start2 ≤ start then [chunk]
      else chunk :: splitLoop chunk_size chunk_overlap text fuel start2
    else []

/-- `TextSplitter.split_text(text)` (`splitter.py` lines 37-77):
run the loop from `start = 0` with enough fuel for every iteration. -/
def split_text (chunk_size chunk_overlap : Nat) (text : List Char) : List Chunk :=
  splitLoop chunk_size chunk_overlap text (text.length + 1) 0

/-! ### Character profiles (src/py_libs/models/character_profile.py and
src/py_libs/flow/character_manager.py) -/

/-- `FamilyRelation` (`character_profile.py` lines 5-8): exactly the pair
of a relation type and a member name. -/
structure FamilyRelation where
  relation_type : String
  name : String
deriving DecidableEq, Repr

/-- `CharacterProfile` (`character_profile.py` lines 10-27).  Timestamps are
ISO-8601 strings (they are parsed and re-serialized losslessly by
`from_dict`/`isoformat`), embeddings are rational vectors. -/
structure CharacterProfile where
  name : String
  aliases : List String
  role : String
  occupation : String
  personality_traits : List String
  goals : List String
  fears : List String
  lovers : List String
  friends : List String
  enemies : List String
  family : List FamilyRelation
  key_events : List String
  profile_text : Option String
  style_embedding : Option (List ℚ)
  created_at : String
  updated_at : String
deriving DecidableEq, Repr

/-- Python truthiness of an `Optional[str]`: `None` and the empty string
are falsy (used by `new_profile.profile_text if new_profile.profile_text
else existing_profile.profile_text`, `character_manager.py` line 310). -/
def pyTruthy : Option String → Bool
  | none => false
  | some s => s != ""

/-- The merge branch of `CharacterManager._save_profiles`
(`character_manager.py` lines 294-314), producing `merged_data` for a
character `name` present in both the existing and the new profiles.
Python's `list(set(a + b))` has the distinct elements of `a + b` in an
unspecified (hash) order; it is modelled as `(a ++ b).dedup`, which keeps
the first occurrence of each element.  The family comprehension
`(rel.relation_type, rel.name): rel for rel in existing + new, then .values()`
keeps one relation per distinct `(relation_type, name)` key; since
`FamilyRelation` consists of exactly those two fields this is `dedup` of
the concatenation.  `role`/`occupation` take the new value only when
strictly longer (lines 297-298); `profile_text` takes the new value when it
is truthy (line 310); `created_at` copies the existing profile's timestamp
(line 311); `updated_at` is the merge time (line 312); `style_embedding` is
reset to `None` (line 313). -/
def merge_profiles (name : String) (existing newp : CharacterProfile)
    (now : String) : CharacterProfile where
  name := name
  aliases := (existing.aliases ++ newp.aliases).dedup
  role := if newp.role.length > existing.role.length then newp.role else existing.role
  occupation :=
    if newp.occupation.length > existing.occupation.length then newp.occupation
    else existing.occupation
  personality_traits := (existing.personality_traits ++ newp.personality_traits).dedup
  goals := (existing.goals ++ newp.goals).dedup
  fears := (existing.fears ++ newp.fears).dedup
  lovers := (existing.lovers ++ newp.lovers).dedup
  friends := (existing.friends ++ newp.friends).dedup
  enemies := (existing.enemies ++ newp.enemies).dedup
  family := (existing.family ++ newp.family).dedup
  key_events := (existing.key_events ++ newp.key_events).dedup
  profile_text :=
    if pyTruthy newp.profile_text then newp.profile_text else existing.profile_text
  style_embedding := none
  created_at := existing.created_at
  updated_at := now

/-- An element of the relationship list built by
`CharacterManager.get_character_network`: the source extends the list with
the *strings* of `profile["friends"]` and `profile["enemies"]` but with the
raw *relation dictionaries* of `profile["family"]`, so the list is
heterogeneous. -/
inductive NetEntry where
  | name (s : String)
  | rel (r : FamilyRelation)
deriving DecidableEq, Repr

/-- The slice of a stored profile JSON object that
`get_character_network` consults; each key may be absent
(`if "friends" in profile: ...`). -/
structure StoredProfile where
  lovers : Option (List String)
  friends : Option (List String)
  enemies : Option (List String)
  family : Option (List FamilyRelation)
deriving DecidableEq, Repr

/-- The per-character relationship list of
`CharacterManager.get_character_network` (`character_manager.py` lines
366-374): `relationships = []`, extended by `friends`, then `enemies`, then
the raw `family` entries, each only when the key is present.  An absent key
and a present-but-empty list both contribute nothing, so presence is
modelled by `Option.getD []`. -/
def network_entries (p : StoredProfile) : List NetEntry :=
  ((p.friends.getD []).map NetEntry.name) ++
    ((p.enemies.getD []).map NetEntry.name) ++
    ((p.family.getD []).map NetEntry.rel)

/-- `CharacterManager.get_character_network` (`character_manager.py` lines
351-376) over a loaded profiles file: one relationship list per stored
character, in file order. -/
def get_character_network (profiles : List (String × StoredProfile)) :
    List (String × List NetEntry) :=
  profiles.map (fun p => (p.1, network_entries p.2))

/-! ### VersionManager (src/py_libs/ingestion/version_manager.py) -/

/-- One entry of `registry["versions"]` (`version_manager.py` lines
67-71). -/
structure VersionMeta where
  id : String
  description : String
  created_at : String
deriving DecidableEq, Repr

/-- The registry object `"current_version": ..., "versions": [...]`
(`version_manager.py` lines 25-28). -/
structure Registry where
  current_version : Option String
  versions : List VersionMeta
deriving DecidableEq, Repr

/-- The empty registry written by `_init_registry` (`version_manager.py`
lines 23-29). -/
def empty_registry : Registry := ⟨none, []⟩

/-- The on-disk state of `index_registry.json`: missing, present but not
valid JSON, or a parsed registry. -/
inductive RegistryFile where
  | absent
  | corrupt
  | valid (r : Registry)
deriving DecidableEq, Repr

/-- The registry-file handling of `VersionManager.__init__`
(`version_manager.py` lines 20-21): `if not self.registry_path.exists():
self._init_registry()`.  Only a missing file is re-initialized; an existing
file — corrupt or not — is left untouched. -/
def vm_init_registry : RegistryFile → RegistryFile
  | .absent => .valid empty_registry
  | f => f

/-- `VersionManager._load_registry` (`version_manager.py` lines 31-34):
`json.load` on the registry file.  A corrupt file raises
`json.JSONDecodeError`, a missing file raises `FileNotFoundError`; both are
modelled as `Except.error`. -/
def load_registry : RegistryFile → Except String Registry
  | .valid r => .ok r
  | .corrupt => .error "json.JSONDecodeError"
  | .absent => .error "FileNotFoundError"

/-- The durable state a `VersionManager` operates on: the parsed registry,
the version directories (`versions/<id>/`, each a set of named artifacts),
and the story directory's own files (the "head" location that
`revert_to_version` copies into). -/
structure VMState where
  registry : Registry
  version_dirs : List (String × List (String × String))
  story_files : List (String × String)
deriving DecidableEq, Repr

/-- Copying every artifact of a version directory into the story directory
(`shutil.copy2`/`copytree` loop, `version_manager.py` lines 96-100):
same-named files are overwritten, the rest are kept. -/
def copy_files (src dst : List (String × String)) : List (String × String) :=
  src ++ dst.filter (fun f => (src.lookup f.1).isNone)

/-- `VersionManager.revert_to_version` (`version_manager.py` lines
77-106): load the registry; if no entry has the requested id, return
`False` *before any mutation*; otherwise copy the version's artifacts to
the story directory, repoint `current_version`, save the registry and
return `True`.  The version directories themselves are never written. -/
def revert_to_version (st : VMState) (version_id : String) : Bool × VMState :=
  if st.registry.versions.any (fun v => v.id == version_id) then
    let files := (st.version_dirs.lookup version_id).getD []
    (true, ⟨⟨some version_id, st.registry.versions⟩, st.version_dirs,
      copy_files files st.story_files⟩)
  else
    (false, st)

/-! ### IndexBuilder and ContextRetriever
(src/py_libs/ingestion/index_builder.py, src/py_libs/flow/retriever.py)

The vector index is the external `faiss.IndexFlatL2`, which is not part of
this repository; it is modelled below from its documented contract: exact
k-nearest-neighbour search under squared Euclidean distance, results in
ascending distance order with ties broken by insertion order, and — when
fewer than `k` vectors are stored — the result arrays are still of length
`k`, padded with label `-1`.  Float32 arithmetic is idealized as exact
arithmetic in an arbitrary linearly ordered commutative ring of scalars
(`ℤ` in the concrete instances below). -/

/-- Squared Euclidean distance between two vectors. -/
def sq_l2 {α : Type} [LinearOrderedCommRing α] (q v : List α) : α :=
  ((List.zipWith (fun a b => a - b) q v).map (fun x => x * x)).sum

/-- Distance from the query to the stored vector with ordinal `i`. -/
def dist_to {α : Type} [LinearOrderedCommRing α] (vectors : List (List α))
    (q : List α) (i : Nat) : α :=
  sq_l2 q (vectors.getD i [])

/-- The ranking order of FAISS results: ascending distance, ties broken by
smaller ordinal (insertion order). -/
def search_le {α : Type} [LinearOrderedCommRing α] (vectors : List (List α))
    (q : List α) (i j : Nat) : Prop :=
  dist_to vectors q i < dist_to vectors q j ∨
    (dist_to vectors q i = dist_to vectors q j ∧ i ≤ j)

instance instDecSearchLe {α : Type} [LinearOrderedCommRing α]
    (vectors : List (List α)) (q : List α) :
    DecidableRel (search_le vectors q) := fun i j => by
  unfold search_le; infer_instance

/-- All ordinals of the index, sorted by `search_le` (ascending distance,
ties by smaller ordinal). -/
def nn_order {α : Type} [LinearOrderedCommRing α] (vectors : List (List α))
    (q : List α) : List Nat :=
  List.insertionSort (search_le vectors q) (List.range vectors.length)

/-- `IndexBuilder.search` (`index_builder.py` lines 29-41): the label row
`indices[0].tolist()` of `faiss.IndexFlatL2.search` for one query — the
first `min k n` nearest ordinals in ranking order, padded with `-1` up to
length `k` when the index holds fewer than `k` vectors (the FAISS contract
for `k > ntotal`; there is no clamping of `k` in the source). -/
def IndexBuilder_search {α : Type} [LinearOrderedCommRing α]
    (vectors : List (List α)) (q : List α) (k : Nat) : List Int :=
  ((nn_order vectors q).take k).map (fun i : Nat => (i : Int)) ++
    List.replicate (k - vectors.length) (-1)

/-- Python list indexing `metadata[idx]` with a possibly negative `int`
index: a negative index counts from the end (`metadata[-1]` is the last
element).  `none` models an `IndexError`. -/
def py_get (metadata : List String) (i : Int) : Option String :=
  if 0 ≤ i then metadata.get? i.toNat
  else metadata.get? (metadata.length - (-i).toNat)

/-- The chunk-collection loop of `ContextRetriever.retrieve_context`
(`retriever.py` lines 83-91): for each label returned by the index search,
`if idx < len(self.metadata)` — a signed comparison that the padding label
`-1` passes — append `self.metadata[idx]`.  Metadata entries are modelled
as opaque strings; the `similarity_score` attached to each copy is not
modelled (the claims concern which and how many entries are returned). -/
def retrieve_context {α : Type} [LinearOrderedCommRing α]
    (vectors : List (List α)) (metadata : List String)
    (q : List α) (k : Nat) : List String :=
  (IndexBuilder_search vectors q k).filterMap
    (fun idx => if idx < (metadata.length : Int) then py_get metadata idx else none)

/-! ### Concrete sample data used by counterexamples and witnesses -/

/-- The 18-character text `"a."` followed by sixteen `'b'`s: its only
sentence terminator sits at position 1. -/
def gap_text : List Char := "a.bbbbbbbbbbbbbbbb".toList

/-- A ten-character text with no sentence terminator. -/
def plain_text : List Char := "abcdefghij".toList

/-- An existing profile whose `profile_text` is `"abc"`. -/
def prof_existing : CharacterProfile :=
  ⟨"Alice", [], "hero", "", [], [], [], [], [], [], [], [],
    some "abc", none, "2024-01-01T00:00:00", "2024-01-01T00:00:00"⟩

/-- A newly extracted profile whose `profile_text` is the shorter,
non-empty string `"x"`. -/
def prof_new : CharacterProfile :=
  ⟨"Alice", [], "hero", "", [], [], [], [], [], [], [], [],
    some "x", none, "2024-06-01T00:00:00", "2024-06-01T00:00:00"⟩

/-- A stored profile with a lover `"L"`, a friend `"F"`, no enemies and one
family relation `(parent, P)`. -/
def net_profile : StoredProfile :=
  ⟨some ["L"], some ["F"], some [], some [⟨"parent", "P"⟩]⟩

/-- A version-manager state with a single registered version `"v1"`. -/
def vm_state : VMState :=
  ⟨⟨some "v1", [⟨"v1", "first", "2024-01-01T00:00:00"⟩]⟩,
    [("v1", [("index.faiss", "bits")])], [("index_registry.json", "reg")]⟩

/-- The fuel argument of `splitLoop` is irrelevant as long as it exceeds
`text.length - start`: the loop variable strictly increases and is bounded
by `text.length`, so the loop of the source always terminates and
`split_text`'s fuel of `text.length + 1` never truncates it. -/
theorem splitLoop_fuel_congr (chunk_size chunk_overlap : Nat) (text : List Char) :
    ∀ f₁ f₂ start, text.length < start + f₁ → text.length < start + f₂ →
      splitLoop chunk_size chunk_overlap text f₁ start =
        splitLoop chunk_size chunk_overlap text f₂ start := by
  intro f₁
  induction f₁ with
  | zero =>
    intro f₂ start h₁ h₂
    have hns : ¬ start < text.length := by omega
    cases f₂ with
    | zero => rfl
    | succ g => simp [splitLoop, hns]
  | succ f ih =>
    intro f₂ start h₁ h₂
    by_cases hs : start < text.length
    · cases f₂ with
      | zero => omega
      | succ g =>
        simp only [splitLoop, hs, if_true]
        set e := split_end chunk_size text start with he
        set start2 := split_next chunk_overlap text e with hs2
        by_cases hstop : text.length ≤ start2 ∨ start2 ≤ start
        · simp [hstop]
        · simp only [hstop, if_false]
          push_neg at hstop
          have := ih g start2 (by omega) (by omega)
          rw [this]
    · cases f₂ with
      | zero => simp [splitLoop, hs]
      | succ g => simp [splitLoop, hs]

/-- The backward boundary search never moves past its starting position. -/
theorem find_back_le (text : List Char) (p : Nat) :
    find_sentence_boundary_backward text p ≤ p := by
  unfold find_sentence_boundary_backward
  split
  next i hf =>
    have hm := List.mem_of_find?_eq_some hf
    rw [List.mem_reverse] at hm
    have h2 := List.mem_range'_1.mp hm
    have h3 : p - min p 99 + min p 99 = p := Nat.sub_add_cancel (Nat.min_le_left p 99)
    omega
  next hf => exact le_refl p

/-- The chunk end never exceeds the text length. -/
theorem split_end_le (chunk_size : Nat) (text : List Char) (start : Nat) :
    split_end chunk_size text start ≤ text.length := by
  unfold split_end
  by_cases h : min (start + chunk_size) text.length < text.length
  · rw [if_pos h]
    exact le_trans (find_back_le text _) (le_of_lt h)
  · rw [if_neg h]
    exact min_le_right _ _

/-- Line 67 of `splitter.py`, `start = max(end - chunk_overlap, end)`, always
yields `end` (the overlap amount is a non-negative count), so the guarded
forward snap of lines 70-71 is dead code and the next chunk starts exactly
at the previous chunk's end. -/
theorem split_next_eq (chunk_overlap : Nat) (text : List Char) (e : Nat) :
    split_next chunk_overlap text e = e := by
  unfold split_next
  have h : max (e - chunk_overlap) e = e := Nat.max_eq_right (Nat.sub_le e chunk_overlap)
  rw [h, if_neg (lt_irrefl e)]

/-- Master invariant of the `split_text` loop: starting the loop at `start`,
(1) the first chunk produced starts at `start`; (2) each later chunk starts
at the previous chunk's end; (3) every chunk except possibly the last is
non-empty; (4) every chunk starts inside the text, ends within it, and no
earlier than `start`; (5) its chunk text is the corresponding slice of the
input; (6) the region covered by the chunks is downward closed above
`start`: any position `p ≥ start` below some chunk's end lies inside some
chunk. -/
theorem splitLoop_inv (chunk_size chunk_overlap : Nat) (text : List Char) :
    ∀ fuel start,
      (∀ c, (splitLoop chunk_size chunk_overlap text fuel start).head? = some c →
        c.start_pos = start) ∧
      List.Chain' (fun a b => b.start_pos = a.end_pos)
        (splitLoop chunk_size chunk_overlap text fuel start) ∧
      (∀ c ∈ (splitLoop chunk_size chunk_overlap text fuel start).dropLast,
        c.start_pos < c.end_pos) ∧
      (∀ c ∈ splitLoop chunk_size chunk_overlap text fuel start,
        start ≤ c.start_pos ∧ c.start_pos < text.length ∧ c.end_pos ≤ text.length ∧
        c.text = (text.drop c.start_pos).take (c.end_pos - c.start_pos)) ∧
      (∀ p, start ≤ p →
        (∃ c ∈ splitLoop chunk_size chunk_overlap text fuel start, p < c.end_pos) →
        ∃ c ∈ splitLoop chunk_size chunk_overlap text fuel start,
          c.start_pos ≤ p ∧ p < c.end_pos) := by
  intro fuel
  induction fuel with
  | zero => intro start; simp [splitLoop]
  | succ f ih =>
    intro start
    by_cases hs : start < text.length
    case neg => simp [splitLoop, hs]
    case pos =>
      simp only [splitLoop, hs, if_true]
      set e := split_end chunk_size text start with he
      set start2 := split_next chunk_overlap text e with hs2
      have hse : start2 = e := by rw [hs2]; exact split_next_eq chunk_overlap text e
      have hele : e ≤ text.length := by rw [he]; exact split_end_le chunk_size text start
      by_cases hstop : text.length ≤ start2 ∨ start2 ≤ start
      · rw [if_pos hstop]
        refine ⟨?_, ?_, ?_, ?_, ?_⟩
        · intro c hc
          simp only [List.head?_cons, Option.some.injEq] at hc
          rw [← hc]
        · exact List.chain'_singleton _
        · simp
        · intro c hc
          simp only [List.mem_singleton] at hc
          subst hc
          exact ⟨le_refl _, hs, hele, rfl⟩
        · intro p hp hex
          obtain ⟨c, hc, hpc⟩ := hex
          simp only [List.mem_singleton] at hc
          subst hc
          exact ⟨_, List.mem_singleton.mpr rfl, hp, hpc⟩
      · rw [if_neg hstop]
        push_neg at hstop
        obtain ⟨hlt, hadv⟩ := hstop
        obtain ⟨ih1, ih2, ih3, ih4, ih5⟩ := ih start2
        refine ⟨?_, ?_, ?_, ?_, ?_⟩
        · intro c hc
          simp only [List.head?_cons, Option.some.injEq] at hc
          rw [← hc]
        · refine List.chain'_cons'.mpr ⟨?_, ih2⟩
          intro y hy
          have : y.start_pos = start2 := ih1 y (Option.mem_def.mp hy)
          rw [this, hse]
        · intro c hc
          cases hrest : splitLoop chunk_size chunk_overlap text f start2 with
          | nil => rw [hrest] at hc; simp at hc
          | cons r rs =>
            rw [hrest] at hc
            have hc' : c = Chunk.mk ((text.drop start).take (e - start)) start e ∨
                c ∈ (r :: rs).dropLast := by
              simpa using hc
            cases hc' with
            | inl hceq =>
              subst hceq
              show start < e
              omega
            | inr hmem =>
              rw [← hrest] at hmem
              exact ih3 c hmem
        · intro c hc
          simp only [List.mem_cons] at hc
          cases hc with
          | inl hceq =>
            subst hceq
            exact ⟨le_refl _, hs, hele, rfl⟩
          | inr hmem =>
            obtain ⟨h1, h2, h3, h4⟩ := ih4 c hmem
            exact ⟨by omega, h2, h3, h4⟩
        · intro p hp hex
          obtain ⟨c, hc, hpc⟩ := hex
          by_cases hpe : p < e
          · exact ⟨_, List.mem_cons_self _ _, hp, hpe⟩
          · push_neg at hpe
            simp only [List.mem_cons] at hc
            cases hc with
            | inl hceq =>
              subst hceq
              simp only at hpc
              omega
            | inr hmem =>
              obtain ⟨c', hc', hc1, hc2⟩ := ih5 p (by omega) ⟨c, hmem, hpc⟩
              exact ⟨c', List.mem_cons_of_mem _ hc', hc1, hc2⟩

/-- The master invariant instantiated at `split_text` (loop entered at
`start = 0` with fuel `text.length + 1`). -/
theorem split_text_inv (chunk_size chunk_overlap : Nat) (text : List Char) :
    (∀ c, (split_text chunk_size chunk_overlap text).head? = some c →
      c.start_pos = 0) ∧
    List.Chain' (fun a b => b.start_pos = a.end_pos)
      (split_text chunk_size chunk_overlap text) ∧
    (∀ c ∈ (split_text chunk_size chunk_overlap text).dropLast,
      c.start_pos < c.end_pos) ∧
    (∀ c ∈ split_text chunk_size chunk_overlap text,
      0 ≤ c.start_pos ∧ c.start_pos < text.length ∧ c.end_pos ≤ text.length ∧
      c.text = (text.drop c.start_pos).take (c.end_pos - c.start_pos)) ∧
    (∀ p, 0 ≤ p →
      (∃ c ∈ split_text chunk_size chunk_overlap text, p < c.end_pos) →
      ∃ c ∈ split_text chunk_size chunk_overlap text,
        c.start_pos ≤ p ∧ p < c.end_pos) :=
  splitLoop_inv chunk_size chunk_overlap text (text.length + 1) 0

/-- When the naive end `start + chunk_size` reaches the end of the text, no
backward snap happens and the chunk ends at `text.length`. -/
theorem split_end_full (chunk_size : Nat) (text : List Char) (start : Nat)
    (h : text.length ≤ start + chunk_size) :
    split_end chunk_size text start = text.length := by
  unfold split_end
  have hm : min (start + chunk_size) text.length = text.length := Nat.min_eq_right h
  rw [hm, if_neg (lt_irrefl _)]

/-- C10: for every `chunk_size`/`chunk_overlap` configuration, the chunks of
`TextSplitter.split_text` are exactly adjacent — the first chunk starts at
position 0, each later chunk starts exactly at the previous chunk's end,
and no two chunks overlap, whatever the `chunk_overlap` setting. -/
theorem split_text_exactly_adjacent (chunk_size chunk_overlap : Nat) (text : List Char) :
    (0 < (split_text chunk_size chunk_overlap text).length →
      ((split_text chunk_size chunk_overlap text).getD 0 ⟨[], 0, 0⟩).start_pos = 0) ∧
    (∀ i, i + 1 < (split_text chunk_size chunk_overlap text).length →
      ((split_text chunk_size chunk_overlap text).getD (i + 1) ⟨[], 0, 0⟩).start_pos =
        ((split_text chunk_size chunk_overlap text).getD i ⟨[], 0, 0⟩).end_pos) ∧
    (∀ i j, i < j → j < (split_text chunk_size chunk_overlap text).length →
      ((split_text chunk_size chunk_overlap text).getD i ⟨[], 0, 0⟩).end_pos ≤
        ((split_text chunk_size chunk_overlap text).getD j ⟨[], 0, 0⟩).start_pos) := by
  obtain ⟨h1, h2, h3, h4, h5⟩ := split_text_inv chunk_size chunk_overlap text
  set L := split_text chunk_size chunk_overlap text with hL
  have hadj : ∀ i, i + 1 < L.length →
      (L.getD (i + 1) ⟨[], 0, 0⟩).start_pos = (L.getD i ⟨[], 0, 0⟩).end_pos := by
    intro i hi
    have hc := List.chain'_iff_get.mp h2 i (by omega)
    rw [List.getD_eq_getElem L _ (by omega), List.getD_eq_getElem L _ (by omega)]
    simpa using hc
  have hpos : ∀ i, i + 1 < L.length →
      (L.getD i ⟨[], 0, 0⟩).start_pos < (L.getD i ⟨[], 0, 0⟩).end_pos := by
    intro i hi
    have hdl : i < L.dropLast.length := by
      rw [List.length_dropLast]; omega
    have hmem : L.dropLast.get ⟨i, hdl⟩ ∈ L.dropLast := List.get_mem _ _ _
    have hlast := h3 _ hmem
    have hge : L.dropLast.get ⟨i, hdl⟩ = L.getD i ⟨[], 0, 0⟩ := by
      rw [List.getD_eq_getElem L _ (by omega), List.get_eq_getElem,
        List.getElem_dropLast]
    rw [hge] at hlast
    exact hlast
  have hmono : ∀ i d, i + d < L.length →
      (L.getD i ⟨[], 0, 0⟩).start_pos ≤ (L.getD (i + d) ⟨[], 0, 0⟩).start_pos := by
    intro i d
    induction d with
    | zero => intro _; exact le_refl _
    | succ d ihd =>
      intro hlt
      have hstep : (L.getD (i + d) ⟨[], 0, 0⟩).start_pos ≤
          (L.getD (i + d + 1) ⟨[], 0, 0⟩).start_pos := by
        rw [hadj (i + d) (by omega)]
        exact le_of_lt (hpos (i + d) (by omega))
      exact le_trans (ihd (by omega)) hstep
  refine ⟨?_, hadj, ?_⟩
  · intro h
    have hh : L.head? = some (L.get ⟨0, h⟩) := by
      rw [List.head?_eq_getElem?, List.getElem?_eq_getElem h, List.get_eq_getElem]
    have := h1 _ hh
    rw [List.getD_eq_getElem L _ h]
    simpa using this
  · intro i j hij hj
    obtain ⟨d, rfl⟩ : ∃ d, j = i + 1 + d := ⟨j - i - 1, by omega⟩
    have h1' : (L.getD i ⟨[], 0, 0⟩).end_pos = (L.getD (i + 1) ⟨[], 0, 0⟩).start_pos :=
      (hadj i (by omega)).symm
    rw [h1']
    exact hmono (i + 1) d (by omega)

/-- C10 witness: on the ten-character terminator-free text with
`chunk_size = 3` and `chunk_overlap = 1`, the second chunk starts exactly at
the first chunk's end. -/
theorem split_text_exactly_adjacent_w :
    0 + 1 < (split_text 3 1 plain_text).length ∧
    ((split_text 3 1 plain_text).getD (0 + 1) ⟨[], 0, 0⟩).start_pos =
      ((split_text 3 1 plain_text).getD 0 ⟨[], 0, 0⟩).end_pos :=
  ⟨by decide, (split_text_exactly_adjacent 3 1 plain_text).2.1 0 (by decide)⟩

/-- C4 (corrected): every chunk starts inside the text, ends within it, and
carries exactly the slice `text[start_pos:end_pos]`; every chunk except
possibly the last is non-empty; and the region covered by the chunks is an
initial segment of the positions below the maximal chunk end — any position
below some chunk's end lies inside some chunk.  (The last chunk may be
empty and coverage may stop short of `len(text)`;
`split_text_skips_content_cex` exhibits this.) -/
theorem split_text_bounds_coverage (chunk_size chunk_overlap : Nat) (text : List Char) :
    (∀ c ∈ split_text chunk_size chunk_overlap text,
      c.start_pos < text.length ∧ c.end_pos ≤ text.length ∧
        c.text = (text.drop c.start_pos).take (c.end_pos - c.start_pos)) ∧
    (∀ c ∈ (split_text chunk_size chunk_overlap text).dropLast,
      c.start_pos < c.end_pos) ∧
    (∀ p, (∃ c ∈ split_text chunk_size chunk_overlap text, p < c.end_pos) →
      ∃ c ∈ split_text chunk_size chunk_overlap text,
        c.start_pos ≤ p ∧ p < c.end_pos) := by
  obtain ⟨h1, h2, h3, h4, h5⟩ := split_text_inv chunk_size chunk_overlap text
  refine ⟨?_, h3, ?_⟩
  · intro c hc
    obtain ⟨_, hb, hc1, hc2⟩ := h4 c hc
    exact ⟨hb, hc1, hc2⟩
  · intro p hex
    exact h5 p (Nat.zero_le p) hex

/-- C4 witness: on the terminator-free ten-character text with
`chunk_size = 3`, position 7 lies below a chunk end, so it lies inside some
chunk. -/
theorem split_text_bounds_coverage_w :
    (∃ c ∈ split_text 3 1 plain_text, 7 < c.end_pos) ∧
    (∃ c ∈ split_text 3 1 plain_text, c.start_pos ≤ 7 ∧ 7 < c.end_pos) :=
  ⟨by decide, (split_text_bounds_coverage 3 1 plain_text).2.2 7 (by decide)⟩

/-- C4 counterexample: on the 18-character text `"a." ++ "b"*16` with
`chunk_size = 10`, the backward snap pulls the second chunk's end back to
the terminator at position 1, producing the empty chunk `(2, 2)`
(violating `start_pos < end_pos`), and the loop then stops for lack of
progress: positions 2..17 belong to no chunk, so the text is not covered. -/
theorem split_text_skips_content_cex :
    gap_text.length = 18 ∧
    split_text 10 5 gap_text =
      [⟨['a', '.'], 0, 2⟩, ⟨[], 2, 2⟩] ∧
    ¬ (∀ c ∈ split_text 10 5 gap_text, c.start_pos < c.end_pos) ∧
    ¬ (∃ c ∈ split_text 10 5 gap_text, c.start_pos ≤ 5 ∧ 5 < c.end_pos) := by
  decide

/-- C9 (corrected): every *non-empty* text strictly shorter than
`chunk_size` yields exactly one chunk, equal to the whole text, with
`start_pos = 0` and `end_pos = len(text)`.  (The empty text yields no
chunks at all: `split_text_empty_cex`.) -/
theorem split_text_short (chunk_size chunk_overlap : Nat) (text : List Char)
    (h0 : 0 < text.length) (hlt : text.length < chunk_size) :
    split_text chunk_size chunk_overlap text = [⟨text, 0, text.length⟩] := by
  unfold split_text
  simp only [splitLoop, h0, if_true]
  rw [split_end_full chunk_size text 0 (by omega), split_next_eq]
  rw [if_pos (Or.inl (le_refl text.length))]
  simp

/-- C9 witness: the two-character text `"ab"` with `chunk_size = 5` yields
the single chunk equal to the whole text. -/
theorem split_text_short_w :
    0 < ("ab".toList : List Char).length ∧ ("ab".toList : List Char).length < 5 ∧
    split_text 5 2 "ab".toList = [⟨"ab".toList, 0, "ab".toList.length⟩] :=
  ⟨by decide, by decide, split_text_short 5 2 "ab".toList (by decide) (by decide)⟩

/-- C9 counterexample: the empty text is strictly shorter than the default
`chunk_size = 500`, yet `split_text` returns no chunk at all (the claim
demands exactly one chunk). -/
theorem split_text_empty_cex :
    split_text 500 50 ([] : List Char) = [] ∧
    ¬ ((split_text 500 50 ([] : List Char)).length = 1) := by
  decide

/-- C2 evaluation at the failing input: on the terminator-free
ten-character text with `chunk_size = 5` and `chunk_overlap = 2`, the chunk
ending at 5 is followed by a chunk starting at 5 (the code's
`max(end - overlap, end)` is `end`), whereas the claimed rule
`end - chunk_overlap` snapped forward gives 3: the chunks do not overlap. -/
theorem split_text_no_overlap_eval :
    (split_text 5 2 plain_text).map Chunk.start_pos = [0, 5] ∧
    (split_text 5 2 plain_text).map Chunk.end_pos = [5, 10] ∧
    split_next 2 plain_text 5 = 5 ∧
    find_sentence_boundary_forward plain_text (5 - 2) = 3 := by
  decide

/-- C1: in the merge of `CharacterManager._save_profiles`, every list-valued
field of the merged profile has exactly the elements of the union of the two
input fields, with no duplicates; the merged family has exactly one entry
per distinct `(relation_type, name)` pair drawn from the two family lists
(a `FamilyRelation` is exactly such a pair, so `Nodup` states the
one-entry-per-pair property); and `created_at` is the existing profile's. -/
theorem merge_profiles_set_union (name : String) (e n : CharacterProfile)
    (now : String) :
    (∀ x, x ∈ (merge_profiles name e n now).aliases ↔
      x ∈ e.aliases ∨ x ∈ n.aliases) ∧
    (merge_profiles name e n now).aliases.Nodup ∧
    (∀ x, x ∈ (merge_profiles name e n now).personality_traits ↔
      x ∈ e.personality_traits ∨ x ∈ n.personality_traits) ∧
    (merge_profiles name e n now).personality_traits.Nodup ∧
    (∀ x, x ∈ (merge_profiles name e n now).goals ↔ x ∈ e.goals ∨ x ∈ n.goals) ∧
    (merge_profiles name e n now).goals.Nodup ∧
    (∀ x, x ∈ (merge_profiles name e n now).fears ↔ x ∈ e.fears ∨ x ∈ n.fears) ∧
    (merge_profiles name e n now).fears.Nodup ∧
    (∀ x, x ∈ (merge_profiles name e n now).lovers ↔ x ∈ e.lovers ∨ x ∈ n.lovers) ∧
    (merge_profiles name e n now).lovers.Nodup ∧
    (∀ x, x ∈ (merge_profiles name e n now).friends ↔ x ∈ e.friends ∨ x ∈ n.friends) ∧
    (merge_profiles name e n now).friends.Nodup ∧
    (∀ x, x ∈ (merge_profiles name e n now).enemies ↔ x ∈ e.enemies ∨ x ∈ n.enemies) ∧
    (merge_profiles name e n now).enemies.Nodup ∧
    (∀ x, x ∈ (merge_profiles name e n now).key_events ↔
      x ∈ e.key_events ∨ x ∈ n.key_events) ∧
    (merge_profiles name e n now).key_events.Nodup ∧
    (∀ r, r ∈ (merge_profiles name e n now).family ↔ r ∈ e.family ∨ r ∈ n.family) ∧
    (merge_profiles name e n now).family.Nodup ∧
    (merge_profiles name e n now).created_at = e.created_at := by
  refine ⟨?_, ?_, ?_, ?_, ?_, ?_, ?_, ?_, ?_, ?_, ?_, ?_, ?_, ?_, ?_, ?_, ?_, ?_, ?_⟩ <;>
    simp [merge_profiles, List.mem_dedup, List.nodup_dedup]

/-- C5 (corrected): `role` and `occupation` merge as longest-string-wins —
the merged value is one of the two inputs, its length is the maximum of the
two lengths, and the existing value is kept unless the new one is strictly
longer — but `profile_text` does *not*: it takes the new value exactly when
that value is truthy (non-null and non-empty), regardless of length, and
keeps the existing value otherwise. -/
theorem merge_longest_wins_except_profile_text (name : String)
    (e n : CharacterProfile) (now : String) :
    (((merge_profiles name e n now).role = e.role ∨
        (merge_profiles name e n now).role = n.role) ∧
      (merge_profiles name e n now).role.length = max e.role.length n.role.length ∧
      (n.role.length ≤ e.role.length → (merge_profiles name e n now).role = e.role)) ∧
    (((merge_profiles name e n now).occupation = e.occupation ∨
        (merge_profiles name e n now).occupation = n.occupation) ∧
      (merge_profiles name e n now).occupation.length =
        max e.occupation.length n.occupation.length ∧
      (n.occupation.length ≤ e.occupation.length →
        (merge_profiles name e n now).occupation = e.occupation)) ∧
    ((n.profile_text = none ∨ n.profile_text = some "" →
        (merge_profiles name e n now).profile_text = e.profile_text) ∧
      (∀ s, n.profile_text = some s → s ≠ "" →
        (merge_profiles name e n now).profile_text = some s)) := by
  refine ⟨⟨?_, ?_, ?_⟩, ⟨?_, ?_, ?_⟩, ?_, ?_⟩
  · by_cases h : n.role.length > e.role.length <;> simp [merge_profiles, h]
  · by_cases h : n.role.length > e.role.length <;> simp [merge_profiles, h] <;> omega
  · intro hle
    have h : ¬ n.role.length > e.role.length := by omega
    simp [merge_profiles, h]
  · by_cases h : n.occupation.length > e.occupation.length <;> simp [merge_profiles, h]
  · by_cases h : n.occupation.length > e.occupation.length <;>
      simp [merge_profiles, h] <;> omega
  · intro hle
    have h : ¬ n.occupation.length > e.occupation.length := by omega
    simp [merge_profiles, h]
  · intro hfalsy
    have h : pyTruthy n.profile_text = false := by
      cases hfalsy with
      | inl h0 => rw [h0]; rfl
      | inr h0 => rw [h0]; rfl
    simp [merge_profiles, h]
  · intro s hs hne
    have h : pyTruthy (some s) = true := by
      simpa [pyTruthy] using hne
    simp [merge_profiles, hs, h]

/-- C5 witness: with an existing role of the same length, the existing role
is kept; the hypotheses of the implication conjuncts are discharged on the
sample profiles. -/
theorem merge_longest_wins_except_profile_text_w :
    prof_new.role.length ≤ prof_existing.role.length ∧
    (merge_profiles "Alice" prof_existing prof_new "t").role = prof_existing.role :=
  ⟨by decide,
    (merge_longest_wins_except_profile_text "Alice" prof_existing prof_new "t").1.2.2
      (by decide)⟩

/-- C5 counterexample: the existing `profile_text` is `"abc"`, the new one
is the strictly shorter non-empty `"x"`; longest-string-wins would keep
`"abc"`, but the merge takes `"x"`. -/
theorem merge_profile_text_not_longest_cex :
    prof_existing.profile_text = some "abc" ∧
    prof_new.profile_text = some "x" ∧
    "x".length < "abc".length ∧
    (merge_profiles "Alice" prof_existing prof_new "t").profile_text = some "x" ∧
    ¬ ((merge_profiles "Alice" prof_existing prof_new "t").profile_text =
        prof_existing.profile_text) := by
  decide

/-- C6 (corrected): the character network maps each stored character to the
concatenation of its `friends` and `enemies` entries (as name strings) with
its raw `family` entries (as relation records, not names); `lovers` are not
consulted at all, so a lover's name appears only if it is also a friend or
an enemy. -/
theorem get_character_network_entries (profiles : List (String × StoredProfile)) :
    (∀ p : StoredProfile, ∀ x : NetEntry,
      x ∈ network_entries p ↔
        ((∃ s, x = NetEntry.name s ∧ (s ∈ p.friends.getD [] ∨ s ∈ p.enemies.getD [])) ∨
          (∃ r, x = NetEntry.rel r ∧ r ∈ p.family.getD []))) ∧
    (∀ p : StoredProfile, ∀ s, s ∈ p.lovers.getD [] → s ∉ p.friends.getD [] →
      s ∉ p.enemies.getD [] → NetEntry.name s ∉ network_entries p) ∧
    (∀ (nm : String) (p : StoredProfile), (nm, p) ∈ profiles →
      (nm, network_entries p) ∈ get_character_network profiles) := by
  have hchar : ∀ p : StoredProfile, ∀ x : NetEntry,
      x ∈ network_entries p ↔
        ((∃ s, x = NetEntry.name s ∧ (s ∈ p.friends.getD [] ∨ s ∈ p.enemies.getD [])) ∨
          (∃ r, x = NetEntry.rel r ∧ r ∈ p.family.getD [])) := by
    intro p x
    simp only [network_entries, List.mem_append, List.mem_map]
    constructor
    · rintro ((⟨s, hs, rfl⟩ | ⟨s, hs, rfl⟩) | ⟨r, hr, rfl⟩)
      · exact Or.inl ⟨s, rfl, Or.inl hs⟩
      · exact Or.inl ⟨s, rfl, Or.inr hs⟩
      · exact Or.inr ⟨r, rfl, hr⟩
    · rintro (⟨s, rfl, hs | hs⟩ | ⟨r, rfl, hr⟩)
      · exact Or.inl (Or.inl ⟨s, hs, rfl⟩)
      · exact Or.inl (Or.inr ⟨s, hs, rfl⟩)
      · exact Or.inr ⟨r, hr, rfl⟩
  refine ⟨hchar, ?_, ?_⟩
  · intro p s _ hf he hmem
    rcases (hchar p (NetEntry.name s)).mp hmem with ⟨s', hs', hfe⟩ | ⟨r, hr, _⟩
    · have : s' = s := by
        cases hs'
        rfl
      subst this
      cases hfe with
      | inl h => exact hf h
      | inr h => exact he h
    · cases hr
  · intro nm p hp
    exact List.mem_map.mpr ⟨(nm, p), hp, rfl⟩

/-- C6 witness: the stored sample profile appears in the computed network
with its friend `"F"` and its raw family relation `(parent, P)`. -/
theorem get_character_network_entries_w :
    ("Alice", net_profile) ∈ [("Alice", net_profile)] ∧
    ("Alice", network_entries net_profile) ∈
      get_character_network [("Alice", net_profile)] :=
  ⟨by decide,
    (get_character_network_entries [("Alice", net_profile)]).2.2 "Alice" net_profile
      (by decide)⟩

/-- C6 counterexample: the profile has lover `"L"`, friend `"F"` and family
relation `(parent, P)`.  The claim demands the network contain the names
`"L"`, `"F"` and `"P"`; the code's network for this character is
`[name "F", rel (parent, P)]` — the lover `"L"` is missing and the family
member appears as a relation record, not as the name `"P"`. -/
theorem get_character_network_cex :
    get_character_network [("Alice", net_profile)] =
      [("Alice", [NetEntry.name "F", NetEntry.rel ⟨"parent", "P"⟩])] ∧
    "L" ∈ net_profile.lovers.getD [] ∧
    NetEntry.name "L" ∉ network_entries net_profile ∧
    NetEntry.name "P" ∉ network_entries net_profile := by
  decide

/-- C7: reverting to a version id that is not in the registry returns
`False` and leaves the whole state — `current_version`, the version list,
the version directories and the story files — unchanged (the source
returns before any mutation). -/
theorem revert_to_version_unknown (st : VMState) (vid : String)
    (h : ∀ v ∈ st.registry.versions, v.id ≠ vid) :
    revert_to_version st vid = (false, st) := by
  unfold revert_to_version
  have hany : (st.registry.versions.any (fun v => v.id == vid)) = false := by
    rw [List.any_eq_false]
    intro v hv
    simpa using h v hv
  rw [hany]
  simp

/-- C7 witness: the sample state registers only `"v1"`, so reverting to
`"v2"` fails and returns the state unchanged. -/
theorem revert_to_version_unknown_w :
    (∀ v ∈ vm_state.registry.versions, v.id ≠ "v2") ∧
    revert_to_version vm_state "v2" = (false, vm_state) :=
  ⟨by decide, revert_to_version_unknown vm_state "v2" (by decide)⟩

/-- C8 (corrected): only *absence* of the registry file at first use
triggers re-initialization to the empty state (after which loads succeed
with the empty registry); a *corrupt* registry file passes the
`registry_path.exists()` test, is left untouched, and every subsequent
load raises the JSON decode error instead of seeing an empty registry. -/
theorem registry_init_absent_only :
    vm_init_registry RegistryFile.absent = RegistryFile.valid empty_registry ∧
    load_registry (vm_init_registry RegistryFile.absent) = Except.ok ⟨none, []⟩ ∧
    (∀ r, vm_init_registry (RegistryFile.valid r) = RegistryFile.valid r) ∧
    vm_init_registry RegistryFile.corrupt = RegistryFile.corrupt ∧
    load_registry (vm_init_registry RegistryFile.corrupt) =
      Except.error "json.JSONDecodeError" :=
  ⟨rfl, rfl, fun _ => rfl, rfl, rfl⟩

/-- C8 counterexample: with a corrupt registry file at first use,
`VersionManager.__init__` does *not* re-initialize it, and a subsequent
load yields the decode error, not the empty registry the claim demands. -/
theorem registry_corrupt_cex :
    vm_init_registry RegistryFile.corrupt = RegistryFile.corrupt ∧
    ¬ (load_registry (vm_init_registry RegistryFile.corrupt) =
        Except.ok empty_registry) :=
  ⟨rfl, fun h => Except.noConfusion h⟩

/-- The FAISS ranking relation is total. -/
theorem search_le_total {α : Type} [LinearOrderedCommRing α]
    (vectors : List (List α)) (q : List α) (i j : Nat) :
    search_le vectors q i j ∨ search_le vectors q j i := by
  unfold search_le
  rcases lt_trichotomy (dist_to vectors q i) (dist_to vectors q j) with h | h | h
  · exact Or.inl (Or.inl h)
  · rcases Nat.le_total i j with hij | hij
    · exact Or.inl (Or.inr ⟨h, hij⟩)
    · exact Or.inr (Or.inr ⟨h.symm, hij⟩)
  · exact Or.inr (Or.inl h)

/-- The FAISS ranking relation is transitive. -/
theorem search_le_trans {α : Type} [LinearOrderedCommRing α]
    (vectors : List (List α)) (q : List α) (a b c : Nat)
    (hab : search_le vectors q a b) (hbc : search_le vectors q b c) :
    search_le vectors q a c := by
  unfold search_le at hab hbc ⊢
  rcases hab with h1 | ⟨h1, h1'⟩ <;> rcases hbc with h2 | ⟨h2, h2'⟩
  · exact Or.inl (lt_trans h1 h2)
  · rw [h2] at h1
    exact Or.inl h1
  · rw [← h1] at h2
    exact Or.inl h2
  · exact Or.inr ⟨h1.trans h2, le_trans h1' h2'⟩

/-- C3 (corrected): `IndexBuilder.search` returns *exactly* `k` labels.
The first `min k n` of them are valid ordinals of the index (where `n` is
the number of stored vectors), pairwise distinct, and sorted by
non-decreasing distance with ties broken by smaller ordinal; the remaining
`k - n` labels (non-empty exactly when `k > n`) are the FAISS padding value
`-1` — `k` is *not* clamped to the index size. -/
theorem search_returns_padded_ranked {α : Type} [LinearOrderedCommRing α]
    (vectors : List (List α)) (q : List α) (k : Nat) :
    (IndexBuilder_search vectors q k).length = k ∧
    (∀ x ∈ (IndexBuilder_search vectors q k).take (min k vectors.length),
      0 ≤ x ∧ x < (vectors.length : Int)) ∧
    (IndexBuilder_search vectors q k).drop (min k vectors.length) =
      List.replicate (k - vectors.length) (-1) ∧
    ((IndexBuilder_search vectors q k).take (min k vectors.length)).Nodup ∧
    List.Pairwise (fun a b =>
      dist_to vectors q a.toNat < dist_to vectors q b.toNat ∨
        (dist_to vectors q a.toNat = dist_to vectors q b.toNat ∧ a < b))
      ((IndexBuilder_search vectors q k).take (min k vectors.length)) := by
  haveI htot : IsTotal Nat (search_le vectors q) := ⟨search_le_total vectors q⟩
  haveI htr : IsTrans Nat (search_le vectors q) :=
    ⟨fun a b c => search_le_trans vectors q a b c⟩
  have hperm : List.Perm (nn_order vectors q) (List.range vectors.length) :=
    List.perm_insertionSort _ _
  have hlen0 : (nn_order vectors q).length = vectors.length := by
    rw [hperm.length_eq, List.length_range]
  have hmem0 : ∀ i ∈ nn_order vectors q, i < vectors.length := fun i hi =>
    List.mem_range.mp (hperm.subset hi)
  have hnd0 : (nn_order vectors q).Nodup :=
    hperm.nodup_iff.mpr (List.nodup_range vectors.length)
  have hsorted : List.Sorted (search_le vectors q) (nn_order vectors q) :=
    List.sorted_insertionSort _ _
  have hAlen : (((nn_order vectors q).take k).map (fun i : Nat => (i : Int))).length =
      min k vectors.length := by
    rw [List.length_map, List.length_take, hlen0]
  have hmin : min k vectors.length + (k - vectors.length) = k := by
    rcases Nat.le_total k vectors.length with h | h
    · rw [Nat.min_eq_left h]; omega
    · rw [Nat.min_eq_right h]; omega
  have hsearch : IndexBuilder_search vectors q k =
      ((nn_order vectors q).take k).map (fun i : Nat => (i : Int)) ++
        List.replicate (k - vectors.length) (-1) := rfl
  have htake : (IndexBuilder_search vectors q k).take (min k vectors.length) =
      ((nn_order vectors q).take k).map (fun i : Nat => (i : Int)) := by
    rw [hsearch, ← hAlen, List.take_left]
  have hdrop : (IndexBuilder_search vectors q k).drop (min k vectors.length) =
      List.replicate (k - vectors.length) (-1) := by
    rw [hsearch, ← hAlen, List.drop_left]
  refine ⟨?_, ?_, hdrop, ?_, ?_⟩
  · rw [hsearch, List.length_append, hAlen, List.length_replicate, hmin]
  · intro x hx
    rw [htake] at hx
    obtain ⟨i, hi, rfl⟩ := List.mem_map.mp hx
    have hin : i < vectors.length := hmem0 i (List.mem_of_mem_take hi)
    exact ⟨Int.natCast_nonneg i, by exact_mod_cast hin⟩
  · rw [htake]
    refine List.Nodup.map ?_ (hnd0.sublist (List.take_sublist k _))
    intro a b hab
    simpa using hab
  · rw [htake, List.pairwise_map]
    have hpair : List.Pairwise (search_le vectors q) ((nn_order vectors q).take k) :=
      List.Pairwise.sublist (List.take_sublist k _) hsorted
    have hne : List.Pairwise (fun a b : Nat => a ≠ b) ((nn_order vectors q).take k) :=
      hnd0.sublist (List.take_sublist k _)
    refine (hpair.and hne).imp ?_
    rintro a b ⟨hr, hab⟩
    rcases hr with h | ⟨heq, hle⟩
    · left
      simpa using h
    · right
      refine ⟨by simpa using heq, ?_⟩
      exact_mod_cast lt_of_le_of_ne hle hab

/-- C3 witness: on a two-vector index queried with `k = 1`, the single
returned label is the valid ordinal `0`. -/
theorem search_returns_padded_ranked_w :
    (0 : Int) ∈ (IndexBuilder_search [[(1 : ℤ)], [(3 : ℤ)]] [(0 : ℤ)] 1).take
        (min 1 (List.length [[(1 : ℤ)], [(3 : ℤ)]])) ∧
    (0 ≤ (0 : Int) ∧ (0 : Int) < (List.length [[(1 : ℤ)], [(3 : ℤ)]] : Int)) :=
  ⟨by decide,
    (search_returns_padded_ranked [[(1 : ℤ)], [(3 : ℤ)]] [(0 : ℤ)] 1).2.1 0 (by decide)⟩

/-- C3 counterexample: an index holding a single vector queried with
`k = 2` returns the two labels `[0, -1]` — more than `min k n = 1` entries,
with `-1` not a valid ordinal — and `retrieve_context` then lets the
padding label pass its `idx < len(metadata)` guard (Python `-1` indexes the
*last* metadata entry), returning the sole chunk twice. -/
theorem search_no_clamp_cex :
    IndexBuilder_search [[(0 : ℤ)]] [(0 : ℤ)] 2 = [(0 : Int), -1] ∧
    ¬ ((IndexBuilder_search [[(0 : ℤ)]] [(0 : ℤ)] 2).length ≤ min 2 1) ∧
    (-1 : Int) ∈ IndexBuilder_search [[(0 : ℤ)]] [(0 : ℤ)] 2 ∧
    retrieve_context [[(0 : ℤ)]] ["m0"] [(0 : ℤ)] 2 = ["m0", "m0"] := by
  decide

end Aethetale
